import Mathlib

/-!
Verification of the team-ai session event-ordering and fan-out protocol.

The frontend client functions are embedded from `frontend/lib/api.ts`.
The backend protocol core (session lock, work queue, turn processor,
fan-out channel and event log) is modelled from the specification, since
`backend/app.py` is referenced by the docs and the Makefile but its code
is not part of the sources here.
-/

namespace TeamAI

/-! Frontend API client, embedded from `frontend/lib/api.ts`.
JS strings are modelled as `List Char` where character-level reasoning is
needed, and as `String` elsewhere. -/

/-- Shape of the backend reply to `POST /api/message` (interface `MessageResponse`). -/
structure MessageResponse where
  ok : Bool
  messageId : String
  deriving DecidableEq, Repr

/-- Outcome of a `fetch` call as observed by `sendMessage`: the promise may
reject (network error), or resolve with an HTTP status and a body whose JSON
decoding yields a `MessageResponse` or fails. -/
inductive FetchOutcome where
  | networkError : FetchOutcome
  | response (status : Nat) (body : Option MessageResponse) : FetchOutcome

/-- JS `Response.ok`: true exactly when the status is in the range 200-299. -/
def responseOk (status : Nat) : Bool :=
  decide (200 ≤ status) && decide (status < 300)

/-- The value returned from the `catch` branch of `sendMessage`. -/
def failureResponse : MessageResponse := { ok := false, messageId := "" }

/-- Embedding of `sendMessage` from `frontend/lib/api.ts`: the whole body is
wrapped in `try/catch`; a rejected fetch, a non-ok status (the code throws
`HTTP <status>` which the catch swallows) and a failing `response.json()` all
land in the catch branch, which returns `{ok: false, messageId: ''}`. -/
def sendMessage (outcome : FetchOutcome) : MessageResponse :=
  match outcome with
  | .networkError => failureResponse
  | .response status body =>
      if responseOk status then
        match body with
        | some r => r
        | none => failureResponse
      else failureResponse

/-- Character for one base-36 digit, as produced by JS `Number.prototype.toString(36)`:
`0`-`9` for digits below ten, lowercase `a`-`z` for the rest. -/
def digitChar36 (d : Fin 36) : Char :=
  if d.val < 10 then Char.ofNat (48 + d.val) else Char.ofNat (87 + d.val)

/-- Characters allowed in the base-36 alphabet: `0`-`9` and `a`-`z`. -/
def isBase36Char (c : Char) : Bool :=
  (decide ('0' ≤ c) && decide (c ≤ '9')) || (decide ('a' ≤ c) && decide (c ≤ 'z'))

/-- JS rendering of a number in `[0,1)` in base 36: `"0"` for zero, otherwise
`"0."` followed by the (shortest) fractional base-36 digits. The digit list is
the model of the randomness consumed from `Math.random()`. -/
def jsNumberToString36 (frac : List (Fin 36)) : List Char :=
  match frac with
  | [] => ['0']
  | _ => '0' :: '.' :: frac.map digitChar36

/-- JS `String.prototype.substring(start, stop)` for `start ≤ stop`: the
characters at indices `start` to `stop` exclusive, clamped to the string. -/
def jsSubstring (s : List Char) (start stop : Nat) : List Char :=
  (s.drop start).take (stop - start)

/-- Embedding of `generateSessionId` from `frontend/lib/api.ts`:
`Math.random().toString(36).substring(2, 10)`. -/
def generateSessionId (frac : List (Fin 36)) : List Char :=
  jsSubstring (jsNumberToString36 frac) 2 10

lemma digitChar36_mem_alphabet (d : Fin 36) : isBase36Char (digitChar36 d) = true := by
  revert d
  decide

lemma all_base36_take (l : List (Fin 36)) (n : Nat) :
    ((l.map digitChar36).take n).all isBase36Char = true := by
  induction l generalizing n with
  | nil => simp
  | cons a t ih =>
      cases n with
      | zero => simp
      | succ m =>
          simp only [List.map_cons, List.take_succ_cons, List.all_cons,
            digitChar36_mem_alphabet, Bool.true_and]
          exact ih m

/-- C10: every output of `generateSessionId` has length at most 8 and consists
only of base-36 digit characters (`0`-`9`, `a`-`z`); some outputs are shorter
than 8 characters, and the function is not injective in its randomness, so
uniqueness is not guaranteed. -/
theorem generateSessionId_spec :
    (∀ frac : List (Fin 36),
        (generateSessionId frac).length ≤ 8 ∧
        (generateSessionId frac).all isBase36Char = true)
    ∧ (∃ frac : List (Fin 36), (generateSessionId frac).length < 8)
    ∧ (∃ f1 f2 : List (Fin 36), f1 ≠ f2 ∧ generateSessionId f1 = generateSessionId f2) := by
  refine ⟨fun frac => ⟨?_, ?_⟩, ⟨[], by decide⟩,
    ⟨List.replicate 9 (0 : Fin 36), List.replicate 8 (0 : Fin 36) ++ [(1 : Fin 36)],
      by decide, by decide⟩⟩
  · exact le_trans (List.length_take_le _ _) (by norm_num)
  · cases frac with
    | nil => decide
    | cons a t =>
        simpa [generateSessionId, jsNumberToString36, jsSubstring] using
          all_base36_take (a :: t) 8

/-- C9: `sendMessage` is total over every fetch outcome (it always returns a
`MessageResponse`), and in every failure case — network error, non-2xx HTTP
status, or an undecodable 2xx body — the returned value is exactly
`{ok: false, messageId: ""}`. -/
theorem sendMessage_error_handling :
    sendMessage .networkError = { ok := false, messageId := "" }
    ∧ (∀ s b, responseOk s = false →
        sendMessage (.response s b) = { ok := false, messageId := "" })
    ∧ (∀ s, responseOk s = true →
        sendMessage (.response s none) = { ok := false, messageId := "" })
    ∧ (∀ s r, responseOk s = true → sendMessage (.response s (some r)) = r) := by
  refine ⟨rfl, fun s b h => ?_, fun s h => ?_, fun s r h => ?_⟩
  · simp [sendMessage, h, failureResponse]
  · simp [sendMessage, h, failureResponse]
  · simp [sendMessage, h]

/-- Witness for C9 at a concrete failing status: a 500 response is a failure
case and `sendMessage` returns `{ok: false, messageId: ""}` on it. -/
theorem sendMessage_error_handling_witness :
    responseOk 500 = false
    ∧ sendMessage (.response 500 none) = { ok := false, messageId := "" } :=
  ⟨by decide, sendMessage_error_handling.2.1 500 none (by decide)⟩

/-! Session Lock. Modelled from the spec: `backend/app.py` (the worker and its
distributed lock on the Redis key `lock:session:{id}`) is not among the
sources, so the lock is embedded from spec section 4.2: a lease
`{sessionId, holderId, expiresAt}` per session, acquired by an atomic
conditional set that fails while a non-expired lease exists, renewable only
while not superseded, releasable idempotently, with expiry by passage of
time. The backing store keeps a single lease record per session key, so a
successful acquire replaces whatever (expired) record the key held. -/

/-- Lock lease record `{sessionId, holderId, expiresAt}`. -/
structure LockLease where
  sessionId : String
  holderId : String
  expiresAt : Nat
  deriving DecidableEq, Repr

/-- State of the lock store: the current time and the lease records held. -/
structure LockState where
  now : Nat
  leases : List LockLease
  deriving Repr

/-- Initial lock store: time zero, no leases. -/
def lockInit : LockState := { now := 0, leases := [] }

/-- Does the store hold a valid (non-expired) lease for session `s`? This is
the condition the atomic conditional set of `acquire` tests. -/
def hasValidLease (st : LockState) (s : String) : Bool :=
  st.leases.any (fun l => l.sessionId == s && decide (st.now < l.expiresAt))

/-- Transitions of the lock store: time passing, a successful atomic acquire
(only when no valid lease for the session exists; it overwrites the key of the session), a successful renew (only of a lease still present, i.e. not
superseded), and release (removes exactly the released handle; a no-op when
the handle is gone, hence idempotent). A failed acquire or renew leaves the
state unchanged and so needs no transition. -/
inductive LockStep : LockState → LockState → Prop where
  | tick (st : LockState) (dt : Nat) :
      LockStep st { st with now := st.now + dt }
  | acquire (st : LockState) (s h : String) (dur : Nat)
      (hfree : hasValidLease st s = false) :
      LockStep st { st with leases :=
        ({ sessionId := s, holderId := h, expiresAt := st.now + dur } ::
          st.leases.filter (fun l => l.sessionId != s)) }
  | renew (st : LockState) (l : LockLease) (dur : Nat) (hmem : l ∈ st.leases) :
      LockStep st { st with leases :=
        ({ sessionId := l.sessionId, holderId := l.holderId, expiresAt := st.now + dur } ::
          st.leases.filter (fun x => x.sessionId != l.sessionId)) }
  | release (st : LockState) (l : LockLease) :
      LockStep st { st with leases := st.leases.filter (fun x => x != l) }

/-- Lock states reachable from the empty store. -/
def LockReachable (st : LockState) : Prop :=
  Relation.ReflTransGen LockStep lockInit st

/-- Number of lease records for session `s`. -/
def sessionLeaseCount (st : LockState) (s : String) : Nat :=
  st.leases.countP (fun l => l.sessionId == s)

/-- Number of valid (non-expired) lease records for session `s`. -/
def validLeaseCount (st : LockState) (s : String) : Nat :=
  st.leases.countP (fun l => l.sessionId == s && decide (st.now < l.expiresAt))

/-- Inductive invariant: each session has at most one lease record. -/
def LockInv (st : LockState) : Prop :=
  ∀ s, sessionLeaseCount st s ≤ 1

lemma countP_le_countP_of_imp {α : Type} {p q : α → Bool}
    (h : ∀ a, p a = true → q a = true) :
    ∀ l : List α, l.countP p ≤ l.countP q := by
  intro l
  induction l with
  | nil => simp
  | cons a t ih =>
      by_cases hp : p a = true
      · rw [List.countP_cons_of_pos _ _ hp, List.countP_cons_of_pos _ _ (h a hp)]
        omega
      · rw [List.countP_cons_of_neg _ _ hp]
        by_cases hq : q a = true
        · rw [List.countP_cons_of_pos _ _ hq]; omega
        · rw [List.countP_cons_of_neg _ _ hq]; exact ih

lemma countP_filter_le {α : Type} (p q : α → Bool) (l : List α) :
    (l.filter q).countP p ≤ l.countP p := by
  induction l with
  | nil => simp
  | cons a t ih =>
      by_cases hq : q a = true
      · rw [List.filter_cons_of_pos hq]
        by_cases hp : p a = true
        · rw [List.countP_cons_of_pos _ _ hp, List.countP_cons_of_pos _ _ hp]; omega
        · rw [List.countP_cons_of_neg _ _ hp, List.countP_cons_of_neg _ _ hp]; exact ih
      · rw [List.filter_cons_of_neg hq]
        by_cases hp : p a = true
        · rw [List.countP_cons_of_pos _ _ hp]; omega
        · rw [List.countP_cons_of_neg _ _ hp]; exact ih

lemma countP_cons_filter_le (s₀ s : String) (l : LockLease) (hl : l.sessionId = s₀)
    (ls : List LockLease) (hinv : ls.countP (fun x => x.sessionId == s) ≤ 1) :
    (l :: ls.filter (fun x => x.sessionId != s₀)).countP (fun x => x.sessionId == s) ≤ 1 := by
  by_cases hss : s = s₀
  · subst hss
    rw [List.countP_cons_of_pos _ _ (by simp [hl])]
    have hzero : (ls.filter (fun x => x.sessionId != s)).countP
        (fun x => x.sessionId == s) = 0 := by
      rw [List.countP_eq_zero]
      intro a ha
      have := List.of_mem_filter ha
      simpa using this
    omega
  · rw [List.countP_cons_of_neg _ _ (by simp [hl]; exact fun h => absurd h.symm hss)]
    exact le_trans (countP_filter_le _ _ _) hinv

lemma lockStep_preserves_inv {st st' : LockState} (h : LockStep st st')
    (hinv : LockInv st) : LockInv st' := by
  cases h with
  | tick dt =>
      intro s; exact hinv s
  | acquire s₀ h₀ dur hfree =>
      intro s
      exact countP_cons_filter_le s₀ s _ rfl st.leases (hinv s)
  | renew l dur hmem =>
      intro s
      exact countP_cons_filter_le l.sessionId s _ rfl st.leases (hinv s)
  | release l =>
      intro s
      exact le_trans (countP_filter_le _ _ _) (hinv s)

lemma lockReachable_inv {st : LockState} (hr : LockReachable st) : LockInv st := by
  induction hr with
  | refl => intro s; simp [sessionLeaseCount, lockInit]
  | tail hsteps hstep ih => exact lockStep_preserves_inv hstep ih

/-- C1: in every reachable state of the lock store, every session has at most
one valid (non-expired) lease — in particular no two workers simultaneously
hold a valid lease for the same session, since concurrent acquire attempts
are atomic conditional sets that fail while a valid lease exists. -/
theorem lock_at_most_one_valid_lease (st : LockState) (hr : LockReachable st)
    (s : String) : validLeaseCount st s ≤ 1 := by
  refine le_trans ?_ (lockReachable_inv hr s)
  exact countP_le_countP_of_imp (fun a ha => by
    simp only [Bool.and_eq_true] at ha
    exact ha.1) st.leases

/-- Witness for C1: the state reached by one successful acquire of session
`s1` is reachable and carries at most one valid lease for `s1`. -/
theorem lock_at_most_one_valid_lease_witness :
    validLeaseCount
      { now := 0, leases := [{ sessionId := "s1", holderId := "w1", expiresAt := 5 }] }
      "s1" ≤ 1 :=
  lock_at_most_one_valid_lease _
    (Relation.ReflTransGen.single (LockStep.acquire lockInit "s1" "w1" 5 (by decide)))
    "s1"

/-! Turn Processor, Fan-Out Channel and Event Log. Modelled from the spec:
the backend worker (`backend/app.py` and its `EventWorker`) is not among
the sources, so the data model of spec section 3 and the operational rules
of sections 4.3-4.5 and 6 are embedded directly: `publish` assigns the next
per-session `sequence` and appends to the durable event log, `submitMessage`
is the ingress operation, and `processTurn` is the per-turn state machine
(working event before the LLM call, then a terminal result or failure event,
bounded-window update, idempotency key, conditional summarization enqueue). -/

/-- Client-facing lifecycle event types of spec section 6. -/
inductive EventType where
  | connectionStatus : EventType
  | messageAccepted : EventType
  | agentWorking : EventType
  | agentResult : EventType
  | agentFailed : EventType
  deriving DecidableEq, Repr

/-- Event `{type, sessionId, messageId?, agentId?, sequence, payload}`. -/
structure Event where
  type : EventType
  sessionId : String
  messageId : Option String
  agentId : Option String
  sequence : Nat
  payload : String
  deriving DecidableEq, Repr

/-- Author of a message: the user or a named agent. -/
inductive Author where
  | user : Author
  | agent (agentId : String) : Author
  deriving DecidableEq, Repr

/-- Message `{messageId, author, text, createdAt}`. -/
structure Message where
  messageId : String
  author : Author
  text : String
  createdAt : Nat
  deriving DecidableEq, Repr

/-- Kind of a Turn Request: a user turn or a summarization turn. -/
inductive TurnKind where
  | userTurn : TurnKind
  | summarizationTurn : TurnKind
  deriving DecidableEq, Repr

/-- Work Queue entry `{sessionId, triggeringMessageId, kind}`; the `turnId`
is the position of the entry in the queue. -/
structure TurnRequest where
  sessionId : String
  triggeringMessageId : String
  kind : TurnKind
  deriving DecidableEq, Repr

/-- Agent role: primary conversation partner or observer. -/
inductive AgentRole where
  | primary : AgentRole
  | observer : AgentRole
  deriving DecidableEq, Repr

/-- Static agent configuration `{agentId, name, role, model, systemPrompt}`. -/
structure AgentConfig where
  agentId : String
  name : String
  role : AgentRole
  model : String
  systemPrompt : String
  deriving DecidableEq, Repr

/-- Process-level configuration: the window bound N and the identity of the
summarizer agent. -/
structure ProtocolConfig where
  windowN : Nat
  summarizerId : String
  deriving DecidableEq, Repr

/-- Per-session state: the recent-message window, the summary record, the
pending Work Queue entries, the Event Log with its sequence counter, and the
idempotency keys of the turns already processed. -/
structure SessionState where
  sessionId : String
  recent : List Message
  summary : String
  queue : List TurnRequest
  eventLog : List Event
  nextSequence : Nat
  processedKeys : List (String × TurnKind)
  deriving DecidableEq, Repr

/-- Lazily-initialized session record: empty everything, sequence counter 0. -/
def initialSession (sid : String) : SessionState :=
  { sessionId := sid, recent := [], summary := "", queue := [], eventLog := [],
    nextSequence := 0, processedKeys := [] }

/-- Fan-Out Channel / Event Log publish: assigns the next monotonically
increasing per-session sequence, appends the event to the durable event log,
and best-effort broadcasts to connected subscribers (broadcast carries no
state). -/
def publish (st : SessionState) (ty : EventType) (messageId agentId : Option String)
    (payload : String) : SessionState :=
  { st with
    eventLog := st.eventLog ++
      [{ type := ty, sessionId := st.sessionId, messageId := messageId,
         agentId := agentId, sequence := st.nextSequence + 1, payload := payload }],
    nextSequence := st.nextSequence + 1 }

/-- Last `n` elements of a list (the most recent entries of a window). -/
def lastN {α : Type} (n : Nat) (l : List α) : List α :=
  (l.reverse.take n).reverse

/-- Bounded-window append: the window keeps only the most recent `n` entries,
oldest evicted first. -/
def appendBounded (n : Nat) (w : List Message) (m : Message) : List Message :=
  lastN n (w ++ [m])

/-- Ingress payload `{sessionId, text, clientMessageId}`. -/
structure IngressInput where
  sessionId : String
  text : String
  clientMessageId : String
  deriving DecidableEq, Repr

/-- Ingress operation of spec section 6: synchronously stores the user
message in the recent-message window, publishes the acceptance echo event,
enqueues a user-turn Turn Request, and returns an acknowledgement
immediately; it takes no LLM collaborator and so cannot wait on one. -/
def submitMessage (cfg : ProtocolConfig) (st : SessionState) (inp : IngressInput)
    (now : Nat) : SessionState × MessageResponse :=
  let msg : Message :=
    { messageId := inp.clientMessageId, author := .user, text := inp.text, createdAt := now }
  let st1 := { st with recent := appendBounded cfg.windowN st.recent msg }
  let st2 := publish st1 .messageAccepted (some inp.clientMessageId) none inp.text
  let st3 := { st2 with queue := st2.queue ++
    [{ sessionId := inp.sessionId, triggeringMessageId := inp.clientMessageId,
       kind := .userTurn }] }
  (st3, { ok := true, messageId := inp.clientMessageId })

/-- Outcome of the opaque LLM collaborator: full text or an error. -/
inductive LLMResult where
  | success (text : String) : LLMResult
  | failure (reason : String) : LLMResult

/-- Idempotency key of a Turn Request: triggeringMessageId + kind. -/
def turnKey (entry : TurnRequest) : String × TurnKind :=
  (entry.triggeringMessageId, entry.kind)

/-- Identifier of the message produced by an agent for a turn (distinct per
responding agent, shared by all events of that message). -/
def newMessageId (entry : TurnRequest) (agent : AgentConfig) : String :=
  entry.triggeringMessageId ++ ":" ++ agent.agentId

/-- Turn Processor state machine of spec section 4.4 for one queue entry.
Without the Session Lock the entry is left unacked and the state untouched;
an already-processed idempotency key makes redelivery a no-op; otherwise the
processor publishes `agent-working` before the (already decided) LLM outcome
is inspected, then on success appends the new message to the bounded window,
publishes `agent-result` under the same new `messageId`, enqueues a
summarization Turn Request unless the responding agent is the summarizer,
and records the idempotency key; on failure it publishes `agent-failed` with
the reason and records the key. -/
def processTurn (cfg : ProtocolConfig) (st : SessionState) (entry : TurnRequest)
    (agent : AgentConfig) (lockAcquired : Bool) (llm : LLMResult) (now : Nat) :
    SessionState :=
  if lockAcquired = false then st
  else if st.processedKeys.contains (turnKey entry) then st
  else
    let stW := publish st .agentWorking (some entry.triggeringMessageId)
      (some agent.agentId) ""
    match llm with
    | .success text =>
        let mid := newMessageId entry agent
        let msg : Message :=
          { messageId := mid, author := .agent agent.agentId, text := text, createdAt := now }
        let stM := { stW with recent := appendBounded cfg.windowN stW.recent msg }
        let stR := publish stM .agentResult (some mid) (some agent.agentId) text
        let stS :=
          if agent.agentId == cfg.summarizerId then stR
          else { stR with queue := stR.queue ++
            [{ sessionId := entry.sessionId, triggeringMessageId := mid,
               kind := .summarizationTurn }] }
        { stS with processedKeys := turnKey entry :: stS.processedKeys }
    | .failure reason =>
        let stF := publish stW .agentFailed (some entry.triggeringMessageId)
          (some agent.agentId) reason
        { stF with processedKeys := turnKey entry :: stF.processedKeys }

/-- Events emitted for a turn: the entries the turn appended to the log. -/
def emittedEvents (cfg : ProtocolConfig) (st : SessionState) (entry : TurnRequest)
    (agent : AgentConfig) (lockAcquired : Bool) (llm : LLMResult) (now : Nat) :
    List Event :=
  (processTurn cfg st entry agent lockAcquired llm now).eventLog.drop st.eventLog.length

/-- Transitions of the state of one session: an ingress submit, or a worker
processing one queue entry (with any lock outcome and any LLM outcome). -/
inductive SessionStep (cfg : ProtocolConfig) : SessionState → SessionState → Prop where
  | submit (st : SessionState) (inp : IngressInput) (now : Nat) :
      SessionStep cfg st (submitMessage cfg st inp now).1
  | turn (st : SessionState) (entry : TurnRequest) (agent : AgentConfig)
      (lockAcquired : Bool) (llm : LLMResult) (now : Nat) :
      SessionStep cfg st (processTurn cfg st entry agent lockAcquired llm now)

/-- Session states reachable from the lazily-initialized record. -/
def SessionReachable (cfg : ProtocolConfig) (sid : String) (st : SessionState) : Prop :=
  Relation.ReflTransGen (SessionStep cfg) (initialSession sid) st

/-- Replay portion of `subscribe(sessionId, sinceSequence)`: all Event Log
entries with `sequence > sinceSequence`, in log order. -/
def replayEvents (st : SessionState) (sinceSequence : Nat) : List Event :=
  st.eventLog.filter (fun e => decide (sinceSequence < e.sequence))

/-- The `agent-working` event a turn publishes before the LLM call. -/
def workingEvent (st : SessionState) (entry : TurnRequest) (agent : AgentConfig) : Event :=
  { type := .agentWorking, sessionId := st.sessionId,
    messageId := some entry.triggeringMessageId, agentId := some agent.agentId,
    sequence := st.nextSequence + 1, payload := "" }

/-- The terminal event a turn publishes after the LLM outcome. -/
def terminalEvent (st : SessionState) (entry : TurnRequest) (agent : AgentConfig)
    (llm : LLMResult) : Event :=
  match llm with
  | .success text =>
      { type := .agentResult, sessionId := st.sessionId,
        messageId := some (newMessageId entry agent), agentId := some agent.agentId,
        sequence := st.nextSequence + 2, payload := text }
  | .failure reason =>
      { type := .agentFailed, sessionId := st.sessionId,
        messageId := some entry.triggeringMessageId, agentId := some agent.agentId,
        sequence := st.nextSequence + 2, payload := reason }

lemma processTurn_busy (cfg : ProtocolConfig) (st : SessionState) (entry : TurnRequest)
    (agent : AgentConfig) (llm : LLMResult) (now : Nat) :
    processTurn cfg st entry agent false llm now = st := by
  simp [processTurn]

lemma processTurn_dup (cfg : ProtocolConfig) (st : SessionState) (entry : TurnRequest)
    (agent : AgentConfig) (lck : Bool) (llm : LLMResult) (now : Nat)
    (h : st.processedKeys.contains (turnKey entry) = true) :
    processTurn cfg st entry agent lck llm now = st := by
  cases lck with
  | false => exact processTurn_busy cfg st entry agent llm now
  | true =>
      unfold processTurn
      rw [if_neg (by simp), if_pos h]

lemma processTurn_success_eq (cfg : ProtocolConfig) (st : SessionState)
    (entry : TurnRequest) (agent : AgentConfig) (text : String) (now : Nat)
    (hkey : st.processedKeys.contains (turnKey entry) = false) :
    processTurn cfg st entry agent true (.success text) now =
      { st with
        recent := appendBounded cfg.windowN st.recent
          { messageId := newMessageId entry agent, author := .agent agent.agentId,
            text := text, createdAt := now },
        eventLog := st.eventLog ++
          [workingEvent st entry agent, terminalEvent st entry agent (.success text)],
        nextSequence := st.nextSequence + 2,
        queue := st.queue ++
          (if agent.agentId == cfg.summarizerId then []
           else [{ sessionId := entry.sessionId,
                   triggeringMessageId := newMessageId entry agent,
                   kind := .summarizationTurn }]),
        processedKeys := turnKey entry :: st.processedKeys } := by
  have hkey' : turnKey entry ∉ st.processedKeys := by simpa using hkey
  by_cases hag : (agent.agentId == cfg.summarizerId) = true
  · simp [processTurn, publish, hkey, hag, workingEvent, terminalEvent]
    intro hmem
    exact absurd hmem hkey'
  · simp only [Bool.not_eq_true] at hag
    simp [processTurn, publish, hkey, hag, workingEvent, terminalEvent]
    intro hmem
    exact absurd hmem hkey'

lemma processTurn_failure_eq (cfg : ProtocolConfig) (st : SessionState)
    (entry : TurnRequest) (agent : AgentConfig) (reason : String) (now : Nat)
    (hkey : st.processedKeys.contains (turnKey entry) = false) :
    processTurn cfg st entry agent true (.failure reason) now =
      { st with
        eventLog := st.eventLog ++
          [workingEvent st entry agent, terminalEvent st entry agent (.failure reason)],
        nextSequence := st.nextSequence + 2,
        processedKeys := turnKey entry :: st.processedKeys } := by
  have hkey' : turnKey entry ∉ st.processedKeys := by simpa using hkey
  simp [processTurn, publish, hkey, workingEvent, terminalEvent]
  intro hmem
  exact absurd hmem hkey'

/-- C2: a turn that is actually processed (lock held, idempotency key not yet
seen) emits exactly the event sequence `[agent-working, agent-result]` or
`[agent-working, agent-failed]`: a single working event first, then exactly
one terminal event. -/
theorem turn_event_sequence (cfg : ProtocolConfig) (st : SessionState)
    (entry : TurnRequest) (agent : AgentConfig) (llm : LLMResult) (now : Nat)
    (hkey : st.processedKeys.contains (turnKey entry) = false) :
    (emittedEvents cfg st entry agent true llm now).map (fun e => e.type) =
        [EventType.agentWorking, EventType.agentResult]
    ∨ (emittedEvents cfg st entry agent true llm now).map (fun e => e.type) =
        [EventType.agentWorking, EventType.agentFailed] := by
  cases llm with
  | success text =>
      left
      rw [emittedEvents, processTurn_success_eq cfg st entry agent text now hkey]
      simp [List.drop_left, workingEvent, terminalEvent]
  | failure reason =>
      right
      rw [emittedEvents, processTurn_failure_eq cfg st entry agent reason now hkey]
      simp [List.drop_left, workingEvent, terminalEvent]

/-- Shared concrete protocol configuration for witnesses. -/
def cfgW : ProtocolConfig := { windowN := 2, summarizerId := "summarizer" }

/-- Shared concrete primary agent for witnesses. -/
def agentW : AgentConfig :=
  { agentId := "nova", name := "Nova", role := .primary, model := "m", systemPrompt := "" }

/-- Shared concrete Turn Request for witnesses. -/
def entryW : TurnRequest :=
  { sessionId := "s1", triggeringMessageId := "m1", kind := .userTurn }

/-- Witness for C2 at a concrete successful turn on a fresh session. -/
theorem turn_event_sequence_witness :
    (emittedEvents cfgW (initialSession "s1") entryW agentW true
        (.success "hello") 3).map (fun e => e.type) =
      [EventType.agentWorking, EventType.agentResult]
    ∨ (emittedEvents cfgW (initialSession "s1") entryW agentW true
        (.success "hello") 3).map (fun e => e.type) =
      [EventType.agentWorking, EventType.agentFailed] :=
  turn_event_sequence cfgW (initialSession "s1") entryW agentW (.success "hello") 3 rfl

/-- C5: redelivering a Turn Request already processed under its idempotency
key (triggeringMessageId + kind) is a complete no-op: the session state —
in particular the recent-message window — is unchanged and no further event
(so no second terminal event under a fresh `messageId`) is emitted. -/
theorem turn_idempotent (cfg : ProtocolConfig) (st : SessionState)
    (entry : TurnRequest) (agent : AgentConfig) (llm llm' : LLMResult) (now now' : Nat)
    (hkey : st.processedKeys.contains (turnKey entry) = false) :
    processTurn cfg (processTurn cfg st entry agent true llm now) entry agent true llm' now'
      = processTurn cfg st entry agent true llm now
    ∧ emittedEvents cfg (processTurn cfg st entry agent true llm now) entry agent
        true llm' now' = [] := by
  have hmark : (processTurn cfg st entry agent true llm now).processedKeys.contains
      (turnKey entry) = true := by
    cases llm with
    | success text =>
        rw [processTurn_success_eq cfg st entry agent text now hkey]
        simp
    | failure reason =>
        rw [processTurn_failure_eq cfg st entry agent reason now hkey]
        simp
  have hfix := processTurn_dup cfg _ entry agent true llm' now' hmark
  refine ⟨hfix, ?_⟩
  rw [emittedEvents, hfix, List.drop_length]

/-- Witness for C5: redelivering a concrete processed turn changes nothing
and emits nothing. -/
theorem turn_idempotent_witness :
    processTurn cfgW (processTurn cfgW (initialSession "s1") entryW agentW true
        (.success "a") 1) entryW agentW true (.success "b") 2
      = processTurn cfgW (initialSession "s1") entryW agentW true (.success "a") 1
    ∧ emittedEvents cfgW (processTurn cfgW (initialSession "s1") entryW agentW true
        (.success "a") 1) entryW agentW true (.success "b") 2 = [] :=
  turn_idempotent cfgW (initialSession "s1") entryW agentW (.success "a") (.success "b")
    1 2 rfl

/-- C6: a successfully processed turn enqueues exactly one summarization Turn
Request for the same session — unless the responding agent is the summarizer
itself, in which case nothing is enqueued, so summarization never recurses. -/
theorem summarization_enqueue (cfg : ProtocolConfig) (st : SessionState)
    (entry : TurnRequest) (agent : AgentConfig) (text : String) (now : Nat)
    (hkey : st.processedKeys.contains (turnKey entry) = false) :
    (agent.agentId ≠ cfg.summarizerId →
      (processTurn cfg st entry agent true (.success text) now).queue =
        st.queue ++ [{ sessionId := entry.sessionId,
                       triggeringMessageId := newMessageId entry agent,
                       kind := .summarizationTurn }])
    ∧ (agent.agentId = cfg.summarizerId →
      (processTurn cfg st entry agent true (.success text) now).queue = st.queue) := by
  rw [processTurn_success_eq cfg st entry agent text now hkey]
  constructor
  · intro hne
    simp [hne]
  · intro heq
    simp [heq]

/-- Witness for C6: a concrete non-summarizer success enqueues the
summarization request for the same session. -/
theorem summarization_enqueue_witness :
    (processTurn cfgW (initialSession "s1") entryW agentW true (.success "hello") 1).queue =
      [{ sessionId := "s1", triggeringMessageId := "m1:nova",
         kind := .summarizationTurn }] := by
  have h := (summarization_enqueue cfgW (initialSession "s1") entryW agentW "hello" 1
    rfl).1 (by decide)
  simpa [initialSession, newMessageId, entryW, agentW] using h

lemma lastN_length_le {α : Type} (n : Nat) (l : List α) : (lastN n l).length ≤ n := by
  simp [lastN, List.length_take]

lemma lastN_of_length_le {α : Type} {n : Nat} {l : List α} (h : l.length ≤ n) :
    lastN n l = l := by
  rw [lastN, List.take_of_length_le (by simpa using h), List.reverse_reverse]

lemma take_absorb {α : Type} (n : Nat) (C B : List α) :
    (C ++ B.take n).take n = (C ++ B).take n := by
  rw [List.take_append_eq_append_take, List.take_append_eq_append_take, List.take_take]
  congr 1
  rw [inf_eq_left.mpr (Nat.sub_le n C.length)]

lemma lastN_append_lastN {α : Type} (n : Nat) (l l' : List α) :
    lastN n (lastN n l ++ l') = lastN n (l ++ l') := by
  simp only [lastN, List.reverse_append, List.reverse_reverse]
  rw [take_absorb]

lemma foldl_appendBounded (n : Nat) (msgs : List Message) :
    ∀ start : List Message, start.length ≤ n →
      msgs.foldl (appendBounded n) start = lastN n (start ++ msgs) := by
  induction msgs with
  | nil =>
      intro start h
      simpa using (lastN_of_length_le h).symm
  | cons m ms ih =>
      intro start h
      rw [List.foldl_cons,
        ih (appendBounded n start m) (lastN_length_le n (start ++ [m]))]
      show lastN n (lastN n (start ++ [m]) ++ ms) = lastN n (start ++ m :: ms)
      rw [lastN_append_lastN]
      simp

/-- C7: inserting M > N messages into a recent-message window bounded at N
leaves exactly the N most recent of the inserted messages, the older ones
having been evicted first; in particular the window length is exactly N. -/
theorem bounded_window (n : Nat) (start msgs : List Message) (hM : n < msgs.length) :
    msgs.foldl (appendBounded n) start = lastN n msgs
    ∧ (lastN n msgs).length = n := by
  constructor
  · cases msgs with
    | nil => simp at hM
    | cons m ms =>
        rw [List.foldl_cons,
          foldl_appendBounded n ms (appendBounded n start m)
            (lastN_length_le n (start ++ [m]))]
        show lastN n (lastN n (start ++ [m]) ++ ms) = lastN n (m :: ms)
        rw [lastN_append_lastN]
        have : start ++ [m] ++ ms = start ++ (m :: ms) := by simp
        rw [this]
        simp only [lastN, List.reverse_append]
        rw [List.take_append_eq_append_take,
          Nat.sub_eq_zero_of_le (by simpa using Nat.le_of_lt hM)]
        simp
  · simp only [lastN, List.length_reverse, List.length_take]
    omega

/-- Witness for C7: inserting three concrete messages into an empty window
bounded at two keeps exactly the two most recent. -/
theorem bounded_window_witness :
    [({ messageId := "a", author := .user, text := "1", createdAt := 1 } : Message),
     { messageId := "b", author := .user, text := "2", createdAt := 2 },
     { messageId := "c", author := .user, text := "3", createdAt := 3 }].foldl
      (appendBounded 2) [] =
      lastN 2
        [({ messageId := "a", author := .user, text := "1", createdAt := 1 } : Message),
         { messageId := "b", author := .user, text := "2", createdAt := 2 },
         { messageId := "c", author := .user, text := "3", createdAt := 3 }]
    ∧ (lastN 2
        [({ messageId := "a", author := .user, text := "1", createdAt := 1 } : Message),
         { messageId := "b", author := .user, text := "2", createdAt := 2 },
         { messageId := "c", author := .user, text := "3", createdAt := 3 }]).length = 2 :=
  bounded_window 2 [] _ (by decide)

/-- C8: submitting a user message `{sessionId, text, clientMessageId}` is one
synchronous operation: it acknowledges with `ok` and the message id chosen by the client,
stores the message as the newest entry of the recent window, publishes the
acceptance echo, and enqueues exactly one user-turn Turn Request keyed by the
client message id — all without consulting any LLM collaborator (the
operation takes none). -/
theorem submit_ingress (cfg : ProtocolConfig) (st : SessionState) (inp : IngressInput)
    (now : Nat) (hN : 1 ≤ cfg.windowN) :
    (submitMessage cfg st inp now).2 = { ok := true, messageId := inp.clientMessageId }
    ∧ (submitMessage cfg st inp now).1.queue =
        st.queue ++ [{ sessionId := inp.sessionId,
                       triggeringMessageId := inp.clientMessageId, kind := .userTurn }]
    ∧ (submitMessage cfg st inp now).1.recent.getLast? =
        some { messageId := inp.clientMessageId, author := .user, text := inp.text,
               createdAt := now }
    ∧ (submitMessage cfg st inp now).1.eventLog =
        st.eventLog ++ [{ type := .messageAccepted, sessionId := st.sessionId,
                          messageId := some inp.clientMessageId, agentId := none,
                          sequence := st.nextSequence + 1, payload := inp.text }] := by
  obtain ⟨k, hk⟩ : ∃ k, cfg.windowN = k + 1 := ⟨cfg.windowN - 1, by omega⟩
  refine ⟨rfl, rfl, ?_, rfl⟩
  simp only [submitMessage, appendBounded, lastN, hk, List.reverse_append,
    List.reverse_cons, List.reverse_nil, List.nil_append, List.singleton_append,
    List.take_succ_cons]
  simp [publish, List.getLast?_concat]

/-- Witness for C8 at a concrete input on a fresh session. -/
theorem submit_ingress_witness :
    (submitMessage cfgW (initialSession "s1")
        { sessionId := "s1", text := "hi", clientMessageId := "m1" } 0).2 =
      { ok := true, messageId := "m1" }
    ∧ (submitMessage cfgW (initialSession "s1")
        { sessionId := "s1", text := "hi", clientMessageId := "m1" } 0).1.queue =
        (initialSession "s1").queue ++
          [{ sessionId := "s1", triggeringMessageId := "m1", kind := .userTurn }]
    ∧ (submitMessage cfgW (initialSession "s1")
        { sessionId := "s1", text := "hi", clientMessageId := "m1" } 0).1.recent.getLast? =
        some { messageId := "m1", author := .user, text := "hi", createdAt := 0 }
    ∧ (submitMessage cfgW (initialSession "s1")
        { sessionId := "s1", text := "hi", clientMessageId := "m1" } 0).1.eventLog =
        (initialSession "s1").eventLog ++
          [{ type := .messageAccepted, sessionId := (initialSession "s1").sessionId,
             messageId := some "m1", agentId := none,
             sequence := (initialSession "s1").nextSequence + 1, payload := "hi" }] :=
  submit_ingress cfgW (initialSession "s1")
    { sessionId := "s1", text := "hi", clientMessageId := "m1" } 0 (by decide)

/-- Dense-log invariant: the event log of a session carries exactly the
sequence numbers `1..n` in order, and the publish counter sits at `n`. -/
def DenseLog (st : SessionState) : Prop :=
  st.eventLog.map (fun e => e.sequence) = List.range' 1 st.eventLog.length
  ∧ st.nextSequence = st.eventLog.length

lemma range'_one_concat (n : Nat) :
    List.range' 1 (n + 1) = List.range' 1 n ++ [n + 1] := by
  rw [List.range'_concat]
  simp [Nat.add_comm]

lemma range'_one_concat_two (n : Nat) :
    List.range' 1 (n + 2) = List.range' 1 n ++ [n + 1, n + 2] := by
  rw [range'_one_concat, range'_one_concat, List.append_assoc]
  rfl

lemma denseLog_append_one {st st' : SessionState} (h : DenseLog st) {e : Event}
    (hlog : st'.eventLog = st.eventLog ++ [e])
    (he : e.sequence = st.nextSequence + 1)
    (hnext : st'.nextSequence = st.nextSequence + 1) : DenseLog st' := by
  obtain ⟨h1, h2⟩ := h
  constructor
  · rw [hlog, List.map_append, h1, List.length_append]
    simp only [List.map_cons, List.map_nil, List.length_cons, List.length_nil,
      Nat.zero_add]
    rw [he, h2, range'_one_concat]
  · rw [hnext, hlog, h2]
    simp

lemma denseLog_append_two {st st' : SessionState} (h : DenseLog st) {e1 e2 : Event}
    (hlog : st'.eventLog = st.eventLog ++ [e1, e2])
    (he1 : e1.sequence = st.nextSequence + 1)
    (he2 : e2.sequence = st.nextSequence + 2)
    (hnext : st'.nextSequence = st.nextSequence + 2) : DenseLog st' := by
  obtain ⟨h1, h2⟩ := h
  constructor
  · rw [hlog, List.map_append, h1, List.length_append]
    simp only [List.map_cons, List.map_nil, List.length_cons, List.length_nil,
      Nat.zero_add]
    rw [he1, he2, h2, range'_one_concat_two]
  · rw [hnext, hlog, h2]
    simp

lemma denseLog_submit (cfg : ProtocolConfig) (st : SessionState) (inp : IngressInput)
    (now : Nat) (h : DenseLog st) : DenseLog (submitMessage cfg st inp now).1 :=
  denseLog_append_one h rfl rfl rfl

lemma denseLog_processTurn (cfg : ProtocolConfig) (st : SessionState)
    (entry : TurnRequest) (agent : AgentConfig) (lck : Bool) (llm : LLMResult)
    (now : Nat) (h : DenseLog st) :
    DenseLog (processTurn cfg st entry agent lck llm now) := by
  cases lck with
  | false => rw [processTurn_busy]; exact h
  | true =>
      by_cases hkey : st.processedKeys.contains (turnKey entry) = true
      · rw [processTurn_dup cfg st entry agent true llm now hkey]; exact h
      · have hkey' : st.processedKeys.contains (turnKey entry) = false := by
          simpa using hkey
        cases llm with
        | success text =>
            rw [processTurn_success_eq cfg st entry agent text now hkey']
            exact denseLog_append_two h rfl rfl rfl rfl
        | failure reason =>
            rw [processTurn_failure_eq cfg st entry agent reason now hkey']
            exact denseLog_append_two h rfl rfl rfl rfl

lemma denseLog_step {cfg : ProtocolConfig} {st st' : SessionState}
    (h : SessionStep cfg st st') (hd : DenseLog st) : DenseLog st' := by
  cases h with
  | submit inp now => exact denseLog_submit cfg st inp now hd
  | turn entry agent lck llm now =>
      exact denseLog_processTurn cfg st entry agent lck llm now hd

lemma sessionReachable_denseLog {cfg : ProtocolConfig} {sid : String}
    {st : SessionState} (hr : SessionReachable cfg sid st) : DenseLog st := by
  induction hr with
  | refl => exact ⟨by simp [initialSession], by simp [initialSession]⟩
  | tail hsteps hstep ih => exact denseLog_step hstep ih

lemma step_eventLog_append {cfg : ProtocolConfig} {st st' : SessionState}
    (h : SessionStep cfg st st') : ∃ d, st'.eventLog = st.eventLog ++ d := by
  cases h with
  | submit inp now => exact ⟨_, rfl⟩
  | turn entry agent lck llm now =>
      cases lck with
      | false => exact ⟨[], by rw [processTurn_busy]; simp⟩
      | true =>
          by_cases hkey : st.processedKeys.contains (turnKey entry) = true
          · exact ⟨[], by rw [processTurn_dup cfg st entry agent true llm now hkey]; simp⟩
          · have hkey' : st.processedKeys.contains (turnKey entry) = false := by
              simpa using hkey
            cases llm with
            | success text =>
                exact ⟨_, by rw [processTurn_success_eq cfg st entry agent text now hkey']⟩
            | failure reason =>
                exact ⟨_, by rw [processTurn_failure_eq cfg st entry agent reason now hkey']⟩

lemma steps_eventLog_append {cfg : ProtocolConfig} {st st' : SessionState}
    (h : Relation.ReflTransGen (SessionStep cfg) st st') :
    ∃ d, st'.eventLog = st.eventLog ++ d := by
  induction h with
  | refl => exact ⟨[], by simp⟩
  | tail hs hstep ih =>
      obtain ⟨d1, hd1⟩ := ih
      obtain ⟨d2, hd2⟩ := step_eventLog_append hstep
      exact ⟨d1 ++ d2, by rw [hd2, hd1, List.append_assoc]⟩

/-- C3: in every reachable session state, the event log is strictly ordered
by `sequence` (the per-session counter increases with every publish, across
all messageIds), so events of one session are totally ordered, and the
events sharing any one `messageId` — observed by a subscriber in log order —
appear in non-decreasing `sequence` order, the order they were published. -/
theorem session_sequence_ordering (cfg : ProtocolConfig) (sid : String)
    (st : SessionState) (hr : SessionReachable cfg sid st) :
    st.eventLog.Pairwise (fun a b => a.sequence < b.sequence)
    ∧ ∀ mid : String,
        (st.eventLog.filter (fun e => e.messageId == some mid)).Pairwise
          (fun a b => a.sequence ≤ b.sequence) := by
  have hd := sessionReachable_denseLog hr
  have hpw : st.eventLog.Pairwise (fun a b => a.sequence < b.sequence) := by
    have hmap : (st.eventLog.map (fun e => e.sequence)).Pairwise (· < ·) := by
      rw [hd.1]
      exact List.pairwise_lt_range' 1 _ 1
    exact List.pairwise_map.mp hmap
  refine ⟨hpw, fun mid => ?_⟩
  exact (List.Pairwise.sublist (List.filter_sublist st.eventLog) hpw).imp le_of_lt

/-- Shared concrete ingress input for witnesses. -/
def inpW : IngressInput := { sessionId := "s1", text := "hi", clientMessageId := "m1" }

/-- Witness for C3 at the state reached by one concrete submit. -/
theorem session_sequence_ordering_witness :
    (submitMessage cfgW (initialSession "s1") inpW 0).1.eventLog.Pairwise
      (fun a b => a.sequence < b.sequence)
    ∧ ∀ mid : String,
        ((submitMessage cfgW (initialSession "s1") inpW 0).1.eventLog.filter
          (fun e => e.messageId == some mid)).Pairwise
            (fun a b => a.sequence ≤ b.sequence) :=
  session_sequence_ordering cfgW "s1" _
    (Relation.ReflTransGen.single (SessionStep.submit (initialSession "s1") inpW 0))

lemma map_seq_filter (l : List Event) (k : Nat) :
    (l.filter (fun e => decide (k < e.sequence))).map (fun e => e.sequence)
      = (l.map (fun e => e.sequence)).filter (fun s => decide (k < s)) := by
  induction l with
  | nil => rfl
  | cons e t ih =>
      by_cases h : k < e.sequence
      · simp [List.filter_cons, h, ih]
      · simp [List.filter_cons, h, ih]

lemma filter_gt_range' (k n : Nat) (hk : k ≤ n) :
    (List.range' 1 n).filter (fun s => decide (k < s)) = List.range' (k + 1) (n - k) := by
  have hsplit : List.range' 1 n = List.range' 1 k ++ List.range' (k + 1) (n - k) := by
    have h := List.range'_append 1 k (n - k) 1
    simp only [Nat.one_mul] at h
    rw [Nat.add_comm 1 k] at h
    have h2 : n - k + k = n := by omega
    rw [h2] at h
    exact h.symm
  rw [hsplit, List.filter_append]
  have h1 : (List.range' 1 k).filter (fun s => decide (k < s)) = [] := by
    rw [List.filter_eq_nil_iff]
    intro a ha
    have hb := List.mem_range'_1.mp ha
    simp only [decide_eq_true_eq]
    omega
  have h2 : (List.range' (k + 1) (n - k)).filter (fun s => decide (k < s)) =
      List.range' (k + 1) (n - k) := by
    rw [List.filter_eq_self]
    intro a ha
    have hb := List.mem_range'_1.mp ha
    simp only [decide_eq_true_eq]
    omega
  rw [h1, h2, List.nil_append]

lemma mem_delta_seq_gt {st st' : SessionState} (hd : DenseLog st) (hd' : DenseLog st')
    (d : List Event) (hlog : st'.eventLog = st.eventLog ++ d) :
    ∀ e ∈ d, st.nextSequence < e.sequence := by
  intro e he
  have hmap : st.eventLog.map (fun x => x.sequence) ++ d.map (fun x => x.sequence)
      = List.range' 1 (st.eventLog.length + d.length) := by
    have h := hd'.1
    rw [hlog] at h
    simpa [List.map_append, List.length_append] using h
  rw [hd.1] at hmap
  have hsplit : List.range' 1 (st.eventLog.length + d.length) =
      List.range' 1 st.eventLog.length ++
        List.range' (st.eventLog.length + 1) d.length := by
    have h := List.range'_append 1 st.eventLog.length d.length 1
    simp only [Nat.one_mul] at h
    rw [Nat.add_comm 1 st.eventLog.length,
      Nat.add_comm d.length st.eventLog.length] at h
    exact h.symm
  rw [hsplit] at hmap
  have hdmap : d.map (fun x => x.sequence) =
      List.range' (st.eventLog.length + 1) d.length :=
    List.append_cancel_left hmap
  have hseq : e.sequence ∈ List.range' (st.eventLog.length + 1) d.length := by
    rw [← hdmap]
    exact List.mem_map_of_mem _ he
  have hb := List.mem_range'_1.mp hseq
  have := hd.2
  omega

/-- C4: a subscriber that observed a reachable session state up to sequence k
and reconnects with `sinceSequence = k` sees the replay of the reconnect-time
log followed by exactly the events published after it — that stream equals
the replay computed at any later state, with no drop and no duplicate across
the transition, and its sequence numbers are exactly `k+1, k+2, …` up to the
session counter: every event with sequence > k exactly once, gap-free. -/
theorem reconnect_replay (cfg : ProtocolConfig) (sid : String) (st st' : SessionState)
    (k : Nat) (hr : SessionReachable cfg sid st)
    (hsteps : Relation.ReflTransGen (SessionStep cfg) st st')
    (hk : k ≤ st.nextSequence) :
    replayEvents st k ++ st'.eventLog.drop st.eventLog.length = replayEvents st' k
    ∧ (replayEvents st' k).map (fun e => e.sequence) =
        List.range' (k + 1) (st'.nextSequence - k) := by
  have hd : DenseLog st := sessionReachable_denseLog hr
  have hd' : DenseLog st' := sessionReachable_denseLog (hr.trans hsteps)
  obtain ⟨d, hlog⟩ := steps_eventLog_append hsteps
  have hgt := mem_delta_seq_gt hd hd' d hlog
  have hfd : d.filter (fun e => decide (k < e.sequence)) = d := by
    rw [List.filter_eq_self]
    intro e he
    have := hgt e he
    simp only [decide_eq_true_eq]
    omega
  constructor
  · rw [replayEvents, replayEvents, hlog, List.filter_append, hfd, List.drop_left]
  · rw [replayEvents, map_seq_filter, hd'.1,
      filter_gt_range' k st'.eventLog.length (by
        have h1 := hd.2
        have h2 := hd'.2
        have h3 : st'.eventLog.length = st.eventLog.length + d.length := by
          rw [hlog, List.length_append]
        omega),
      hd'.2]

/-- Witness for C4: reconnecting with cursor 0 against the fresh session,
after one concrete submit, replays exactly the one published event. -/
theorem reconnect_replay_witness :
    replayEvents (initialSession "s1") 0 ++
      (submitMessage cfgW (initialSession "s1") inpW 0).1.eventLog.drop
        (initialSession "s1").eventLog.length =
      replayEvents (submitMessage cfgW (initialSession "s1") inpW 0).1 0
    ∧ (replayEvents (submitMessage cfgW (initialSession "s1") inpW 0).1 0).map
        (fun e => e.sequence) =
        List.range' (0 + 1)
          ((submitMessage cfgW (initialSession "s1") inpW 0).1.nextSequence - 0) :=
  reconnect_replay cfgW "s1" (initialSession "s1") _ 0 Relation.ReflTransGen.refl
    (Relation.ReflTransGen.single (SessionStep.submit (initialSession "s1") inpW 0))
    (Nat.le_refl 0)

end TeamAI
